import Mathlib

/-!
Verification of the ED_ADC sampling/statistics engine (ED_adc.cpp / ED_adc.h).

The development shallowly embeds the code:
* `calculatePercWidth` is modelled exactly, including the binary32
  single-precision float arithmetic the C++ source uses for the index
  computation.  Floats are represented as unnormalised non-negative dyadic
  numbers `F32` (significand × 2^exponent); every float operation of the
  source (int→float conversion, float division, multiplication, and
  subtraction) performs the exact operation followed by `norm24`,
  round-to-nearest-even at 24 significant bits, which is IEEE-754 binary32
  behaviour for the magnitudes arising here (far from overflow and
  subnormal ranges).  All arithmetic is over ℕ/ℤ so that concrete
  evaluation works; the rational valuation `F32.toQ` is only used in
  proofs.
* `ADCChannel::read` is modelled as a fold over a driver oracle, with the
  `uint32_t` sum accumulator reduced mod 2^32 as in the source.
* `ADCUnit`'s continuous-handle provisioning is modelled as a state
  machine over an explicit driver-call trace, counting driver calls and
  tracking live (allocated, not yet deinitialised) handles.
* The continuous-sampling polling loop of `sampleForDuration` is modelled
  with one loop iteration per clock tick and a poll-result trace.
-/

namespace EDADC

/-! ## Binary32 arithmetic model -/

/-- Fuel-driven floor of log2; `lg2 fuel n` is `⌊log2 n⌋` whenever
`1 ≤ n ≤ fuel` (the fuel only forces structural termination). -/
def lg2 : Nat → Nat → Nat
  | 0, _ => 0
  | fuel + 1, n => if n ≤ 1 then 0 else lg2 fuel (n / 2) + 1

/-- `nlog2 n = ⌊log2 n⌋` for `n ≥ 1` (and 0 at 0). -/
def nlog2 (n : Nat) : Nat := lg2 n n

/-- A non-negative binary float value `m × 2^e`, not necessarily
normalised. -/
structure F32 where
  m : Nat
  e : Int
  deriving DecidableEq

/-- Round `a / b` to the nearest integer, ties to even. -/
def rneDiv (a b : Nat) : Nat :=
  if 2 * (a % b) < b then a / b
  else if b < 2 * (a % b) then a / b + 1
  else if a / b % 2 = 0 then a / b else a / b + 1

/-- Round `m / 2^k` to the nearest integer, ties to even. -/
def shiftRNE (m k : Nat) : Nat := rneDiv m (2 ^ k)

/-- Renormalise a dyadic value to at most 24 significant bits,
round-to-nearest-even: the rounding step every binary32 operation
performs on its exact result. -/
def norm24 (m : Nat) (e : Int) : F32 :=
  let b := nlog2 m
  if b ≤ 23 then ⟨m, e⟩
  else ⟨shiftRNE m (b - 23), e + (b - 23 : Nat)⟩

/-- `(float)n` : conversion of an unsigned integer to binary32. -/
def ofNatF (n : Nat) : F32 := norm24 n 0

/-- Binary32 multiplication: exact product, then one rounding. -/
def mulF (x y : F32) : F32 := norm24 (x.m * y.m) (x.e + y.e)

/-- Decide whether `2^e ≤ a / b` (for `b ≥ 1`). -/
def le2pow (e : Int) (a b : Nat) : Bool :=
  if 0 ≤ e then 2 ^ e.toNat * b ≤ a else b ≤ a * 2 ^ (-e).toNat

/-- Binary32 division `a / b` of two positive integers: the correctly
rounded quotient.  `e` is `⌊log2 (a/b)⌋`, obtained from the integer logs
of `a` and `b` with a one-step correction; the significand is the
quotient scaled to 24 bits and rounded to nearest, ties to even. -/
def divF (a b : Nat) : F32 :=
  let e0 : Int := (nlog2 a : Int) - (nlog2 b : Int)
  let e : Int := if le2pow e0 a b then e0 else e0 - 1
  let s : Nat :=
    if 0 ≤ 23 - e then rneDiv (a * 2 ^ (23 - e).toNat) b
    else rneDiv a (b * 2 ^ (e - 23).toNat)
  ⟨s, e - 23⟩

/-- Binary32 subtraction `1.0f - x` for `x = m × 2^e` with `e ≤ 0` and
`x ≤ 1` (the only shape it is applied to here): the exact difference
`(2^(-e) - m) × 2^e`, then one rounding. -/
def oneSubF (x : F32) : F32 := norm24 (2 ^ (-x.e).toNat - x.m) x.e

/-- `static_cast<size_t>` of a non-negative float: truncation. -/
def truncF (x : F32) : Nat :=
  if 0 ≤ x.e then x.m * 2 ^ x.e.toNat else x.m / 2 ^ (-x.e).toNat

/-- Rational value of an `F32` (proof-side only). -/
def F32.toQ (x : F32) : ℚ := (x.m : ℚ) * (2 : ℚ) ^ x.e

/-! ## calculatePercWidth (ED_adc.cpp lines 146-173)

```cpp
int ADCChannel::calculatePercWidth(std::vector<int>& data, int8_t percentile) {
    if (percentile < 10 || percentile > 90) return 0;
    if (data.empty()) return 0;
    std::sort(data.begin(), data.end());
    const size_t n = data.size();
    const float perc_decimal = static_cast<float>(percentile) / 100.0f;
    size_t lower_index = static_cast<size_t>((n - 1) * perc_decimal);
    size_t upper_index = static_cast<size_t>((n - 1) * (1.0f - perc_decimal));
    lower_index = std::min(lower_index, n - 1);
    upper_index = std::min(upper_index, n - 1);
    int lower_value = data[lower_index];
    int upper_value = data[upper_index];
    return upper_value - lower_value;
}
```

`std::sort` with the default `<` on `int` produces the unique ascending
reordering of the values (for a total order, any two sorted permutations
of the same multiset are equal as lists), modelled by
`List.insertionSort (· ≤ ·)`.  `perc_decimal` is one exact int→float
conversion (exact, |percentile| < 2^24) followed by one correctly rounded
float division, i.e. `divF`; `(n - 1)` is converted `size_t → float`
(`ofNatF`), each multiplication rounds once (`mulF`), `1.0f -
perc_decimal` rounds once (`oneSubF`), and `static_cast<size_t>` of the
non-negative results truncates (`truncF`). -/

/-- The `lower_index` value of `calculatePercWidth` before clamping,
for a data size `n` and percentile `p`. -/
def lowerIndexF (n : Nat) (p : Int) : Nat :=
  truncF (mulF (ofNatF (n - 1)) (divF p.toNat 100))

/-- The `upper_index` value of `calculatePercWidth` before clamping. -/
def upperIndexF (n : Nat) (p : Int) : Nat :=
  truncF (mulF (ofNatF (n - 1)) (oneSubF (divF p.toNat 100)))

/-- Shallow embedding of `ADCChannel::calculatePercWidth`.  The `int8_t`
percentile parameter is modelled as the integer it holds. -/
def calculatePercWidth (data : List ℤ) (percentile : Int) : ℤ :=
  if percentile < 10 ∨ 90 < percentile then 0
  else if data = [] then 0
  else
    let sorted := data.insertionSort (· ≤ ·)
    let n := data.length
    let perc_decimal := divF percentile.toNat 100
    let lower_index := truncF (mulF (ofNatF (n - 1)) perc_decimal)
    let upper_index := truncF (mulF (ofNatF (n - 1)) (oneSubF perc_decimal))
    let lower_index := min lower_index (n - 1)
    let upper_index := min upper_index (n - 1)
    sorted.getD upper_index 0 - sorted.getD lower_index 0

/-- The spec's index formula in exact arithmetic:
`truncate((n-1) × p/100)`, which for integer `0 ≤ p` is `(n-1)·p / 100`
in natural division. -/
def specLowerIndex (n : Nat) (p : Int) : Nat := (n - 1) * p.toNat / 100

/-- The spec's index formula in exact arithmetic:
`truncate((n-1) × (1 - p/100)) = (n-1)·(100-p) / 100`. -/
def specUpperIndex (n : Nat) (p : Int) : Nat := (n - 1) * (100 - p).toNat / 100

/-- The percentile-width computation exactly as the spec words it
(sort ascending, exact-arithmetic truncated indices, clamp, subtract). -/
def specPercWidth (data : List ℤ) (p : Int) : ℤ :=
  let sorted := data.insertionSort (· ≤ ·)
  let n := data.length
  sorted.getD (min (specUpperIndex n p) (n - 1)) 0 -
    sorted.getD (min (specLowerIndex n p) (n - 1)) 0

/-! ## ADCChannel::read (ED_adc.cpp lines 73-109)

Error codes (`esp_err_t`) are modelled as integers, `ESP_OK = 0`.  The
driver call `adc_oneshot_read` is an oracle indexed by the sample number:
`.ok raw` models `ESP_OK` with out-value `raw`, `.error e` models a
nonzero return.  `adc_cali_raw_to_voltage` is an oracle `cali` (its
return value is ignored by the source, only the out-value is used).  The
`uint32_t sum` accumulator wraps mod 2^32 (the `int` voltage is converted
to `uint32_t` by `sum += voltage`); `min`/`max` start from `INT32_MAX` /
`INT32_MIN`.  `vTaskDelay` only sleeps, so the delay parameter does not
affect the modelled state. -/

/-- `ESP_ERR_TIMEOUT` (0x107 in esp_err.h). -/
def ESP_ERR_TIMEOUT : Int := 263

def INT32_MAX : Int := 2147483647

def INT32_MIN : Int := -2147483648

/-- Result struct populated by `read` (ADCReadResult in ED_adc.h). -/
structure ADCReadResult where
  average_mv : Int
  min_mv : Int
  max_mv : Int
  p30_width_mv : Int
  p60_width_mv : Int
  deriving DecidableEq

/-- The sampling loop of `ADCChannel::read`: `i` is the index of the next
sample, the second argument the number of samples still to take;
accumulates the voltage vector, the wrapping `uint32_t` sum, min and
max.  A failing `adc_oneshot_read` aborts the whole loop with its error
code. -/
def readGo (oneshot : Nat → Except Int Int) (cali : Int → Int) :
    Nat → Nat → List Int → Nat → Int → Int →
    Except Int (List Int × Nat × Int × Int)
  | _, 0, voltages, sum, mn, mx => .ok (voltages, sum, mn, mx)
  | i, r + 1, voltages, sum, mn, mx =>
    match oneshot i with
    | .error e => .error e
    | .ok raw =>
      let v := cali raw
      readGo oneshot cali (i + 1) r (voltages ++ [v])
        ((sum + (v % 2 ^ 32).toNat) % 2 ^ 32) (min mn v) (max mx v)

/-- Shallow embedding of `ADCChannel::read`.  Returns the `esp_err_t`
result together with the final contents of the by-reference `result`
argument: on failure the loop returns before any field of `result` is
assigned, so the caller's `result` is returned unchanged. -/
def read (oneshot : Nat → Except Int Int) (cali : Int → Int)
    (sample_count : Nat) (result : ADCReadResult) : Int × ADCReadResult :=
  match readGo oneshot cali 0 sample_count [] 0 INT32_MAX INT32_MIN with
  | .error e => (e, result)
  | .ok (voltages, sum, mn, mx) =>
    (0, { average_mv := ((sum / sample_count : Nat) : Int)
          min_mv := mn
          max_mv := mx
          p30_width_mv := calculatePercWidth voltages 30
          p60_width_mv := calculatePercWidth voltages 60 })

/-! ## ADCUnit continuous-handle provisioning (ED_adc.cpp lines 193-261)

The streaming driver is an oracle trace: `newHandle i` is the result of
the `i`-th `adc_continuous_new_handle` call made on this unit (`.ok h`
yields the handle written through the out-parameter), `configOk i` the
result of the `i`-th `adc_continuous_config` call.  The state records the
members of `ADCUnit` together with instrumentation: how many `new_handle`
and `config` driver calls were made, and which handles are currently
live (allocated by `adc_continuous_new_handle` and not yet released by
`adc_continuous_deinit`) for leak accounting.  `none` models a null
handle pointer. -/

structure ContDriver where
  newHandle : Nat → Except Int Nat
  configOk : Nat → Except Int Unit

structure ADCUnitState where
  oneshot_handle : Nat
  cont_handle : Option Nat
  continuous_initialized : Bool
  newCalls : Nat
  configCalls : Nat
  live : List Nat
  deriving DecidableEq

/-- Shallow embedding of `ADCUnit::ensureContinuousInitialized`.  Returns
the `esp_err_t` and the successor unit state.  Note the source sets
`_continuous_initialized` only after full success; on a `config` failure
it deinitialises the freshly allocated handle but leaves `_cont_handle`
pointing at it. -/
def ensureContinuousInitialized (d : ContDriver) (s : ADCUnitState) :
    Int × ADCUnitState :=
  if s.continuous_initialized then (0, s)
  else
    match d.newHandle s.newCalls with
    | .error e => (e, { s with newCalls := s.newCalls + 1 })
    | .ok h =>
      let s1 := { s with newCalls := s.newCalls + 1, cont_handle := some h,
                         live := s.live ++ [h] }
      match d.configOk s1.configCalls with
      | .error e =>
        (e, { s1 with configCalls := s1.configCalls + 1,
                      live := s1.live.erase h })
      | .ok _ =>
        (0, { s1 with configCalls := s1.configCalls + 1,
                      continuous_initialized := true })

/-- Shallow embedding of `ADCUnit::getContinuousHandle`: runs
`ensureContinuousInitialized`, returns `_cont_handle` on `ESP_OK` and a
null handle otherwise. -/
def getContinuousHandle (d : ContDriver) (s : ADCUnitState) :
    Option Nat × ADCUnitState :=
  let r := ensureContinuousInitialized d s
  if r.1 = 0 then (r.2.cont_handle, r.2) else (none, r.2)

/-! ## ADCChannel::sampleForDuration (ED_adc.cpp lines 27-71)

The polling loop runs while elapsed wall-clock time is below
`duration_ms`; time is modelled by counting loop iterations, so a
duration of `d` performs `d` polls.  `poll i` is the result of the `i`-th
`adc_continuous_read` call: `.ok bytes` models `ESP_OK` with `bytes_read`
bytes placed in the buffer, `.err e` a nonzero return (of which
`ESP_ERR_TIMEOUT` is the no-data-yet case).  The second component of the
loop result collects the error codes logged by `ESP_LOGW` for
non-timeout read errors. -/

inductive PollRes where
  | ok (bytes : List Nat)
  | err (e : Int)
  deriving DecidableEq

/-- The record decoding of the loop body: two bytes per sample, low byte
first, `(buffer[i+1] << 8) | buffer[i]` masked to 12 bits
(`ADC_DIGI_OUTPUT_FORMAT_TYPE2`).  The hardware record format makes
`bytes_read` even; a trailing unpaired byte is not decoded. -/
def decodeBytes : List Nat → List Int
  | lo :: hi :: rest => ((((hi <<< 8) ||| lo) &&& 0xFFF : Nat) : Int) :: decodeBytes rest
  | _ => []

/-- The polling loop of `sampleForDuration`: one iteration per elapsed
tick, `r` ticks remaining.  An `ESP_OK` read decodes and calibrates each
record and appends in order; a timeout continues silently; any other
error is logged and the loop continues. -/
def sampleLoop (poll : Nat → PollRes) (cali : Int → Int) :
    Nat → Nat → List Int → List Int → List Int × List Int
  | _, 0, voltages, logged => (voltages, logged)
  | i, r + 1, voltages, logged =>
    match poll i with
    | .ok bytes =>
      sampleLoop poll cali (i + 1) r (voltages ++ (decodeBytes bytes).map cali) logged
    | .err e =>
      if e = ESP_ERR_TIMEOUT then sampleLoop poll cali (i + 1) r voltages logged
      else sampleLoop poll cali (i + 1) r voltages (logged ++ [e])

/-- Shallow embedding of `ADCChannel::sampleForDuration` given the
channel's continuous handle: `start` is the `adc_continuous_start` result
as a function of the handle; a failing start aborts with an empty vector
before any polling.  Returns the voltage vector and the loop's logged
read-error codes. -/
def sampleForDuration (cont_handle : Option Nat) (start : Option Nat → Int)
    (poll : Nat → PollRes) (cali : Int → Int) (duration_ms : Nat) :
    List Int × List Int :=
  if start cont_handle ≠ 0 then ([], [])
  else sampleLoop poll cali 0 duration_ms [] []

/-! ## ADCChannel construction (ED_adc.cpp lines 18-25, 111-144)

`configChannel` models the `adc_oneshot_config_channel` result and
`caliCreate` the `adc_cali_create_scheme_curve_fitting` result (with the
created calibration handle).  The constructor's initialiser list fetches
the unit's oneshot handle and eagerly calls `getContinuousHandle` (which
may provision the streaming handle, mutating the unit); the body then
configures the oneshot channel and creates the calibration scheme,
setting `_is_initialized` only if both succeed. -/

structure ChanDriver where
  configChannel : Except Int Unit
  caliCreate : Except Int Nat

structure ADCChannelState where
  oneshot_handle : Nat
  cont_handle : Option Nat
  cali_handle : Option Nat
  is_initialized : Bool
  deriving DecidableEq

/-- Shallow embedding of the `ADCChannel` constructor.  Returns the
constructed channel object together with the unit state after the eager
`getContinuousHandle` call. -/
def constructChannel (cd : ChanDriver) (ud : ContDriver) (u : ADCUnitState) :
    ADCChannelState × ADCUnitState :=
  let r := getContinuousHandle ud u
  let base : ADCChannelState :=
    { oneshot_handle := u.oneshot_handle, cont_handle := r.1,
      cali_handle := none, is_initialized := false }
  match cd.configChannel with
  | .error _ => (base, r.2)
  | .ok _ =>
    match cd.caliCreate with
    | .error _ => (base, r.2)
    | .ok h => ({ base with cali_handle := some h, is_initialized := true }, r.2)

/-- Shallow embedding of `ADCChannel::create`: returns the channel if the
constructor initialised it, null otherwise (the partially constructed
object is destroyed). -/
def createChannel (cd : ChanDriver) (ud : ContDriver) (u : ADCUnitState) :
    Option ADCChannelState × ADCUnitState :=
  let r := constructChannel cd ud u
  if r.1.is_initialized then (some r.1, r.2) else (none, r.2)

/-- `sampleForDuration` as invoked on a channel object: it uses the
channel's cached `_cont_handle`. -/
def channelSampleForDuration (c : ADCChannelState) (start : Option Nat → Int)
    (poll : Nat → PollRes) (cali : Int → Int) (duration_ms : Nat) :
    List Int × List Int :=
  sampleForDuration c.cont_handle start poll cali duration_ms

/-! ## Proof-side rational semantics of the binary32 model -/

/-- Round-to-nearest-even on ℚ (proof-side counterpart of
`shiftRNE`/`rneDiv`). -/
def rneQ (x : ℚ) : ℤ :=
  if x - (⌊x⌋ : ℚ) < 1/2 then ⌊x⌋
  else if (1 : ℚ)/2 < x - (⌊x⌋ : ℚ) then ⌊x⌋ + 1
  else if ⌊x⌋ % 2 = 0 then ⌊x⌋ else ⌊x⌋ + 1

/-- `⌊log2 q⌋` on ℚ. -/
def elog (q : ℚ) : Int := Int.log 2 q

/-- Rounding a positive rational to the binary32 value grid: 24-bit
round-to-nearest-even (proof-side spec of `norm24`/`divF`). -/
def roundQ (q : ℚ) : ℚ :=
  (rneQ (q / 2 ^ (elog q - 23)) : ℚ) * 2 ^ (elog q - 23)

/-- Decidable dyadic comparison of two `F32` values. -/
def leDyadic (x y : F32) : Bool :=
  x.m * 2 ^ (x.e - min x.e y.e).toNat ≤ y.m * 2 ^ (y.e - min x.e y.e).toNat

/-- The wrapping `uint32_t` sum accumulation of the read loop (list view
of the accumulator updates performed by `readGo`). -/
def sumU32 (sum : Nat) (vs : List ℤ) : Nat :=
  vs.foldl (fun s v => (s + (v % 2 ^ 32).toNat) % 2 ^ 32) sum

/-- A driver trace is well formed when every failing call reports a
nonzero `esp_err_t` (`ESP_OK = 0` is reserved for success). -/
def DriverWF (d : ContDriver) : Prop :=
  (∀ i e, d.newHandle i = .error e → e ≠ 0) ∧
  (∀ i e, d.configOk i = .error e → e ≠ 0)

/-- Concrete trace: the first streaming-config attempt fails, the second
succeeds (handle 7 then 8). -/
def d0 : ContDriver :=
  ⟨fun i => .ok (7 + i), fun i => if i = 0 then .error 1 else .ok ()⟩

/-- Concrete trace: provisioning always succeeds with handle 7. -/
def dOK : ContDriver := ⟨fun _ => .ok 7, fun _ => .ok ()⟩

/-- Concrete trace: handle allocation always fails with code 3. -/
def dERR : ContDriver := ⟨fun _ => .error 3, fun _ => .ok ()⟩

/-- A fresh unit state (oneshot handle 5, streaming not provisioned). -/
def u0 : ADCUnitState := ⟨5, none, false, 0, 0, []⟩

/-- Concrete channel driver: oneshot channel config and calibration-scheme
creation both succeed (calibration handle 9). -/
def cdOK : ChanDriver := ⟨.ok (), .ok 9⟩

/-! ## Lemmas: integer log -/

theorem lg2_spec : ∀ fuel n, 1 ≤ n → n ≤ fuel →
    2 ^ lg2 fuel n ≤ n ∧ n < 2 ^ (lg2 fuel n + 1) := by
  intro fuel
  induction fuel with
  | zero => intro n h1 h2; omega
  | succ f ih =>
    intro n h1 h2
    by_cases h : n ≤ 1
    · have hn : n = 1 := by omega
      simp [lg2, h, hn]
    · have h2' : n / 2 ≤ f := by omega
      have h1' : 1 ≤ n / 2 := by omega
      obtain ⟨a, b⟩ := ih (n / 2) h1' h2'
      have e1 : lg2 (f + 1) n = lg2 f (n / 2) + 1 := by simp [lg2, h]
      rw [e1]
      constructor
      · have : 2 ^ (lg2 f (n / 2) + 1) = 2 * 2 ^ lg2 f (n / 2) := by ring
        rw [this]
        omega
      · have : 2 ^ (lg2 f (n / 2) + 1 + 1) = 2 * 2 ^ (lg2 f (n / 2) + 1) := by ring
        rw [this]
        omega

theorem nlog2_spec (n : Nat) (h : 1 ≤ n) :
    2 ^ nlog2 n ≤ n ∧ n < 2 ^ (nlog2 n + 1) :=
  lg2_spec n n h le_rfl

theorem nlog2_zero : nlog2 0 = 0 := rfl

/-! ## Lemmas: round-to-nearest-even on ℚ -/

theorem floor_le_rneQ (x : ℚ) : ⌊x⌋ ≤ rneQ x := by
  unfold rneQ
  split_ifs <;> omega

theorem rneQ_le_floor_add_one (x : ℚ) : rneQ x ≤ ⌊x⌋ + 1 := by
  unfold rneQ
  split_ifs <;> omega

theorem rneQ_intCast (n : ℤ) : rneQ (n : ℚ) = n := by
  unfold rneQ
  simp

theorem rneQ_mono {x y : ℚ} (h : x ≤ y) : rneQ x ≤ rneQ y := by
  rcases lt_or_le ⌊x⌋ ⌊y⌋ with hf | hf
  · calc rneQ x ≤ ⌊x⌋ + 1 := rneQ_le_floor_add_one x
    _ ≤ ⌊y⌋ := by omega
    _ ≤ rneQ y := floor_le_rneQ y
  · have hf' : ⌊x⌋ = ⌊y⌋ := le_antisymm (Int.floor_le_floor h) hf
    have hfr : x - (⌊x⌋ : ℚ) ≤ y - (⌊y⌋ : ℚ) := by
      rw [← hf']
      linarith
    unfold rneQ
    rw [hf']
    split_ifs <;> first | omega | linarith

/-! ## Lemmas: roundQ -/

theorem elog_le (q : ℚ) (hq : 0 < q) : (2 : ℚ) ^ elog q ≤ q := by
  have := Int.zpow_log_le_self (b := 2) one_lt_two hq
  simpa [elog] using this

theorem elog_lt (q : ℚ) : q < (2 : ℚ) ^ (elog q + 1) := by
  have := Int.lt_zpow_succ_log_self (b := 2) one_lt_two q
  simpa [elog] using this

theorem le_roundQ (q : ℚ) (hq : 0 < q) : (2 : ℚ) ^ elog q ≤ roundQ q := by
  unfold roundQ
  set e := elog q with he
  have hμ : (0 : ℚ) < 2 ^ (e - 23) := zpow_pos (by norm_num) _
  have h1 : (2 : ℚ) ^ (23 : ℤ) ≤ q / 2 ^ (e - 23) := by
    rw [le_div_iff hμ, ← zpow_add₀ (by norm_num : (2:ℚ) ≠ 0)]
    simpa using elog_le q hq
  have h2 : ((2 : ℤ) ^ (23 : ℕ) : ℚ) ≤ q / 2 ^ (e - 23) := by
    push_cast
    convert h1 using 2
    norm_num
  have h3 : (2 : ℤ) ^ (23 : ℕ) ≤ ⌊q / 2 ^ (e - 23)⌋ := Int.le_floor.mpr h2
  have h4 : (2 : ℤ) ^ (23 : ℕ) ≤ rneQ (q / 2 ^ (e - 23)) :=
    le_trans h3 (floor_le_rneQ _)
  calc (2 : ℚ) ^ e = 2 ^ (23 : ℤ) * 2 ^ (e - 23) := by
        rw [← zpow_add₀ (by norm_num : (2:ℚ) ≠ 0)]
        ring_nf
    _ ≤ (rneQ (q / 2 ^ (e - 23)) : ℚ) * 2 ^ (e - 23) := by
        apply mul_le_mul_of_nonneg_right _ (le_of_lt hμ)
        have : ((2 : ℤ) ^ (23 : ℕ) : ℚ) ≤ (rneQ (q / 2 ^ (e - 23)) : ℚ) := by
          exact_mod_cast h4
        convert this using 1
        norm_num
    _ = roundQ q := by rw [roundQ, he]

theorem roundQ_le (q : ℚ) : roundQ q ≤ (2 : ℚ) ^ (elog q + 1) := by
  unfold roundQ
  set e := elog q with he
  have hμ : (0 : ℚ) < 2 ^ (e - 23) := zpow_pos (by norm_num) _
  have h1 : q / 2 ^ (e - 23) < (2 : ℚ) ^ (24 : ℤ) := by
    rw [div_lt_iff hμ, ← zpow_add₀ (by norm_num : (2:ℚ) ≠ 0)]
    have : (24 : ℤ) + (e - 23) = e + 1 := by ring
    rw [this]
    exact elog_lt q
  have h2 : q / 2 ^ (e - 23) < ((2 : ℤ) ^ (24 : ℕ) : ℚ) := by
    push_cast
    convert h1 using 2
    norm_num
  have h3 : ⌊q / 2 ^ (e - 23)⌋ < (2 : ℤ) ^ (24 : ℕ) := Int.floor_lt.mpr h2
  have h4 : rneQ (q / 2 ^ (e - 23)) ≤ (2 : ℤ) ^ (24 : ℕ) := by
    have := rneQ_le_floor_add_one (q / 2 ^ (e - 23))
    omega
  calc (rneQ (q / 2 ^ (e - 23)) : ℚ) * 2 ^ (e - 23)
      ≤ ((2 : ℤ) ^ (24 : ℕ) : ℚ) * 2 ^ (e - 23) := by
        apply mul_le_mul_of_nonneg_right _ (le_of_lt hμ)
        exact_mod_cast h4
    _ = (2 : ℚ) ^ (e + 1) := by
        push_cast
        rw [← zpow_natCast (2 : ℚ) 24, ← zpow_add₀ (by norm_num : (2:ℚ) ≠ 0)]
        norm_num
        ring_nf

theorem roundQ_pos (q : ℚ) (hq : 0 < q) : 0 < roundQ q :=
  lt_of_lt_of_le (zpow_pos (by norm_num) _) (le_roundQ q hq)

theorem roundQ_mono {x y : ℚ} (hx : 0 < x) (hxy : x ≤ y) :
    roundQ x ≤ roundQ y := by
  have hy : 0 < y := lt_of_lt_of_le hx hxy
  have he : elog x ≤ elog y := Int.log_mono_right hx hxy
  rcases eq_or_lt_of_le he with heq | hlt
  · unfold roundQ
    rw [← heq]
    have hμ : (0 : ℚ) < 2 ^ (elog x - 23) := zpow_pos (by norm_num) _
    apply mul_le_mul_of_nonneg_right _ (le_of_lt hμ)
    have : x / 2 ^ (elog x - 23) ≤ y / 2 ^ (elog x - 23) :=
      (div_le_div_right hμ).mpr hxy
    exact_mod_cast rneQ_mono this
  · calc roundQ x ≤ (2 : ℚ) ^ (elog x + 1) := roundQ_le x
      _ ≤ (2 : ℚ) ^ elog y := by
          apply zpow_le_zpow_right₀ (by norm_num : (1:ℚ) ≤ 2)
          omega
      _ ≤ roundQ y := le_roundQ y hy

/-! ## Lemmas: bridging the integer implementation to roundQ -/

theorem elog_dyadic (m : Nat) (e : Int) (h1 : 1 ≤ m) :
    elog ((m : ℚ) * 2 ^ e) = (nlog2 m : ℤ) + e := by
  obtain ⟨ha, hb⟩ := nlog2_spec m h1
  set a := nlog2 m with hadef
  set q : ℚ := (m : ℚ) * 2 ^ e with hqdef
  have h2 : (0:ℚ) < 2 := by norm_num
  have hq : 0 < q := by
    apply mul_pos _ (zpow_pos h2 e)
    exact_mod_cast h1
  have hlow : (2 : ℚ) ^ ((a : ℤ) + e) ≤ q := by
    rw [zpow_add₀ (ne_of_gt h2)]
    apply mul_le_mul_of_nonneg_right _ (le_of_lt (zpow_pos h2 e))
    rw [zpow_natCast]
    exact_mod_cast ha
  have hhigh : q < (2 : ℚ) ^ ((a : ℤ) + e + 1) := by
    have : (a : ℤ) + e + 1 = ((a + 1 : ℕ) : ℤ) + e := by push_cast; ring
    rw [this, zpow_add₀ (ne_of_gt h2)]
    apply mul_lt_mul_of_pos_right _ (zpow_pos h2 e)
    rw [zpow_natCast]
    exact_mod_cast hb
  apply le_antisymm
  · by_contra hcon
    push_neg at hcon
    have : (2 : ℚ) ^ ((a : ℤ) + e + 1) ≤ (2 : ℚ) ^ elog q :=
      zpow_le_zpow_right₀ (by norm_num) (by omega)
    have := le_trans this (elog_le q hq)
    linarith
  · have h3 : elog ((2 : ℚ) ^ ((a : ℤ) + e)) = (a : ℤ) + e := by
      unfold elog
      have hlog := Int.log_zpow (b := 2) (R := ℚ) one_lt_two ((a : ℤ) + e)
      have hcast : ((2 : ℕ) : ℚ) = (2 : ℚ) := by norm_num
      rw [hcast] at hlog
      exact hlog
    rw [← h3]
    exact Int.log_mono_right (zpow_pos h2 _) hlow

theorem roundQ_dyadic (m : Nat) (e : Int) (h1 : 1 ≤ m) (h2 : m < 2 ^ 24) :
    roundQ ((m : ℚ) * 2 ^ e) = (m : ℚ) * 2 ^ e := by
  obtain ⟨ha, hb⟩ := nlog2_spec m h1
  set a := nlog2 m with hadef
  have ha23 : a ≤ 23 := by
    by_contra hcon
    push_neg at hcon
    have : 2 ^ 24 ≤ 2 ^ a := Nat.pow_le_pow_right (by norm_num) (by omega)
    omega
  have h2q : (0:ℚ) < 2 := by norm_num
  have hE : elog ((m : ℚ) * 2 ^ e) = (a : ℤ) + e := elog_dyadic m e h1
  unfold roundQ
  rw [hE]
  have key : (m : ℚ) * 2 ^ e / 2 ^ ((a : ℤ) + e - 23) =
      (((m * 2 ^ (23 - a) : ℕ) : ℤ) : ℚ) := by
    push_cast
    rw [div_eq_iff (ne_of_gt (zpow_pos h2q _)), mul_assoc,
        ← zpow_natCast (2:ℚ) (23 - a), ← zpow_add₀ (ne_of_gt h2q)]
    have : ((23 - a : ℕ) : ℤ) + ((a : ℤ) + e - 23) = e := by omega
    rw [this]
  rw [key, rneQ_intCast]
  push_cast
  rw [mul_assoc, ← zpow_natCast (2:ℚ) (23 - a), ← zpow_add₀ (ne_of_gt h2q)]
  have : ((23 - a : ℕ) : ℤ) + ((a : ℤ) + e - 23) = e := by omega
  rw [this]

theorem natCast_div_add_mod (a b : Nat) (hb : 0 < b) :
    (a : ℚ) / (b : ℚ) = ((a / b : ℕ) : ℚ) + ((a % b : ℕ) : ℚ) / (b : ℚ) := by
  have hbq : (0:ℚ) < (b:ℚ) := by exact_mod_cast hb
  have key : b * (a / b) + a % b = a := Nat.div_add_mod a b
  have haq : (b : ℚ) * ((a / b : ℕ) : ℚ) + ((a % b : ℕ) : ℚ) = (a : ℚ) := by
    exact_mod_cast congrArg (Nat.cast (R := ℚ)) key
  field_simp
  linarith

theorem floor_natCast_div (a b : Nat) (hb : 0 < b) :
    ⌊(a : ℚ) / (b : ℚ)⌋ = ((a / b : ℕ) : ℤ) := by
  have hbq : (0:ℚ) < (b:ℚ) := by exact_mod_cast hb
  have hrb : a % b < b := Nat.mod_lt a hb
  have hrb0 : (0:ℚ) ≤ ((a % b : ℕ) : ℚ) / b := div_nonneg (by positivity) (le_of_lt hbq)
  have hrb1 : ((a % b : ℕ) : ℚ) / b < 1 := (div_lt_one hbq).mpr (by exact_mod_cast hrb)
  rw [natCast_div_add_mod a b hb, Int.floor_eq_iff]
  constructor
  · rw [Int.cast_natCast]
    linarith
  · rw [Int.cast_natCast]
    linarith

theorem rneDiv_eq_rneQ (a b : Nat) (hb : 0 < b) :
    (rneDiv a b : ℤ) = rneQ ((a : ℚ) / (b : ℚ)) := by
  have hbq : (0:ℚ) < (b:ℚ) := by exact_mod_cast hb
  have hrb : a % b < b := Nat.mod_lt a hb
  have hx : (a : ℚ) / (b : ℚ) = ((a / b : ℕ) : ℚ) + ((a % b : ℕ) : ℚ) / (b : ℚ) :=
    natCast_div_add_mod a b hb
  have hrb0 : (0:ℚ) ≤ ((a % b : ℕ) : ℚ) / b := div_nonneg (by positivity) (le_of_lt hbq)
  have hrb1 : ((a % b : ℕ) : ℚ) / b < 1 := (div_lt_one hbq).mpr (by exact_mod_cast hrb)
  have hfl : ⌊(a : ℚ) / (b : ℚ)⌋ = ((a / b : ℕ) : ℤ) := floor_natCast_div a b hb
  have hfrac : (a : ℚ) / (b : ℚ) - (((a / b : ℕ) : ℤ) : ℚ) = ((a % b : ℕ) : ℚ) / b := by
    rw [hx, Int.cast_natCast]
    ring
  have c1 : ((a : ℚ) / (b : ℚ) - ((((a / b : ℕ) : ℤ)) : ℚ) < 1/2) ↔ 2 * (a % b) < b := by
    rw [hfrac, div_lt_div_iff hbq (by norm_num : (0:ℚ) < 2)]
    constructor
    · intro h
      have h2 : ((2 * (a % b) : ℕ) : ℚ) < (b : ℚ) := by push_cast; linarith
      exact_mod_cast h2
    · intro h
      have h2 : ((2 * (a % b) : ℕ) : ℚ) < (b : ℚ) := by exact_mod_cast h
      push_cast at h2
      linarith
  have c2 : ((1 : ℚ)/2 < (a : ℚ) / (b : ℚ) - ((((a / b : ℕ) : ℤ)) : ℚ)) ↔ b < 2 * (a % b) := by
    rw [hfrac, div_lt_div_iff (by norm_num : (0:ℚ) < 2) hbq]
    constructor
    · intro h
      have h2 : (b : ℚ) < ((2 * (a % b) : ℕ) : ℚ) := by push_cast; linarith
      exact_mod_cast h2
    · intro h
      have h2 : (b : ℚ) < ((2 * (a % b) : ℕ) : ℚ) := by exact_mod_cast h
      push_cast at h2
      linarith
  have c3 : (((a / b : ℕ) : ℤ) % 2 = 0) ↔ a / b % 2 = 0 := by omega
  unfold rneDiv rneQ
  rw [hfl]
  simp only [c1, c2, c3]
  split_ifs <;> push_cast <;> ring

theorem toQ_mk (m : Nat) (e : Int) : F32.toQ ⟨m, e⟩ = (m : ℚ) * 2 ^ e := rfl

theorem toQ_nonneg (x : F32) : 0 ≤ x.toQ := by
  unfold F32.toQ
  positivity

theorem toQ_pos (x : F32) (h : 1 ≤ x.m) : 0 < x.toQ := by
  unfold F32.toQ
  apply mul_pos _ (zpow_pos (by norm_num) _)
  exact_mod_cast h

theorem norm24_toQ (m : Nat) (e : Int) (h1 : 1 ≤ m) :
    (norm24 m e).toQ = roundQ ((m : ℚ) * 2 ^ e) := by
  obtain ⟨ha, hb⟩ := nlog2_spec m h1
  by_cases hc : nlog2 m ≤ 23
  · have hm24 : m < 2 ^ 24 := by
      have : 2 ^ (nlog2 m + 1) ≤ 2 ^ 24 := Nat.pow_le_pow_right (by norm_num) (by omega)
      omega
    rw [norm24]
    simp only [hc, if_pos]
    rw [toQ_mk, roundQ_dyadic m e h1 hm24]
  · push_neg at hc
    have h2q : (0:ℚ) < 2 := by norm_num
    have hE : elog ((m : ℚ) * 2 ^ e) = (nlog2 m : ℤ) + e := elog_dyadic m e h1
    have hif : norm24 m e =
        ⟨shiftRNE m (nlog2 m - 23), e + ((nlog2 m - 23 : ℕ) : ℤ)⟩ := by
      simp only [norm24]
      rw [if_neg (by omega)]
    rw [hif, toQ_mk]
    unfold roundQ
    rw [hE]
    have key : (m : ℚ) * 2 ^ e / 2 ^ ((nlog2 m : ℤ) + e - 23) =
        (m : ℚ) / ((2 ^ (nlog2 m - 23) : ℕ) : ℚ) := by
      rw [div_eq_div_iff (ne_of_gt (zpow_pos h2q _))
        (by positivity : ((2 ^ (nlog2 m - 23) : ℕ) : ℚ) ≠ 0)]
      push_cast
      rw [← zpow_natCast (2:ℚ) (nlog2 m - 23), mul_assoc, ← zpow_add₀ (ne_of_gt h2q)]
      have hexp : e + ((nlog2 m - 23 : ℕ) : ℤ) = (nlog2 m : ℤ) + e - 23 := by omega
      rw [hexp]
    rw [key]
    rw [shiftRNE, ← rneDiv_eq_rneQ m (2 ^ (nlog2 m - 23)) (Nat.pos_pow_of_pos _ (by norm_num))]
    rw [Int.cast_natCast]
    have hexp2 : e + ((nlog2 m - 23 : ℕ) : ℤ) = (nlog2 m : ℤ) + e - 23 := by omega
    rw [hexp2]

theorem truncF_eq (x : F32) : (truncF x : ℤ) = ⌊x.toQ⌋ := by
  unfold truncF F32.toQ
  by_cases h : 0 ≤ x.e
  · rw [if_pos h]
    have : (x.m : ℚ) * 2 ^ x.e = (((x.m * 2 ^ x.e.toNat : ℕ) : ℤ) : ℚ) := by
      push_cast
      rw [← zpow_natCast (2:ℚ) x.e.toNat]
      congr 2
      omega
    rw [this, Int.floor_intCast]
  · rw [if_neg h]
    push_neg at h
    have key : (x.m : ℚ) * 2 ^ x.e = (x.m : ℚ) / ((2 ^ (-x.e).toNat : ℕ) : ℚ) := by
      rw [eq_div_iff (by positivity : ((2 ^ (-x.e).toNat : ℕ) : ℚ) ≠ 0)]
      push_cast
      rw [mul_assoc, ← zpow_natCast (2:ℚ) (-x.e).toNat, ← zpow_add₀ (by norm_num : (2:ℚ) ≠ 0)]
      have hz : x.e + (((-x.e).toNat : ℕ) : ℤ) = 0 := by omega
      rw [hz, zpow_zero, mul_one]
    have hbp : 0 < 2 ^ (-x.e).toNat := Nat.pos_pow_of_pos _ (by norm_num)
    rw [key, floor_natCast_div x.m (2 ^ (-x.e).toNat) hbp]

theorem mulF_toQ (x y : F32) (hx : 1 ≤ x.m) (hy : 1 ≤ y.m) :
    (mulF x y).toQ = roundQ (x.toQ * y.toQ) := by
  unfold mulF
  rw [norm24_toQ _ _ (Nat.one_le_iff_ne_zero.mpr (by positivity))]
  congr 1
  unfold F32.toQ
  push_cast
  rw [zpow_add₀ (by norm_num : (2:ℚ) ≠ 0)]
  ring

theorem leDyadic_iff (x y : F32) : leDyadic x y = true ↔ x.toQ ≤ y.toQ := by
  unfold leDyadic F32.toQ
  rw [decide_eq_true_eq]
  set em := min x.e y.e with hem
  have h2q : (0:ℚ) < 2 := by norm_num
  have hx : (x.m : ℚ) * 2 ^ x.e = ((x.m * 2 ^ (x.e - em).toNat : ℕ) : ℚ) * 2 ^ em := by
    push_cast
    rw [mul_assoc, ← zpow_natCast (2:ℚ) (x.e - em).toNat, ← zpow_add₀ (ne_of_gt h2q)]
    congr 2
    omega
  have hy : (y.m : ℚ) * 2 ^ y.e = ((y.m * 2 ^ (y.e - em).toNat : ℕ) : ℚ) * 2 ^ em := by
    push_cast
    rw [mul_assoc, ← zpow_natCast (2:ℚ) (y.e - em).toNat, ← zpow_add₀ (ne_of_gt h2q)]
    congr 2
    omega
  rw [hx, hy]
  rw [mul_le_mul_right (zpow_pos h2q em)]
  exact_mod_cast Iff.symm Nat.cast_le

/-! ## Lemmas: calculatePercWidth structure -/

theorem div_le_rneDiv (a b : Nat) : a / b ≤ rneDiv a b := by
  unfold rneDiv
  split_ifs <;> omega

theorem ofNatF_m_pos (k : Nat) (h : 1 ≤ k) : 1 ≤ (ofNatF k).m := by
  simp only [ofNatF, norm24]
  split_ifs with hb
  · exact h
  · push_neg at hb
    show 1 ≤ shiftRNE k (nlog2 k - 23)
    have hpow : 2 ^ (nlog2 k - 23) ≤ k :=
      le_trans (Nat.pow_le_pow_right (by norm_num) (by omega)) (nlog2_spec k h).1
    have hdiv : 1 ≤ k / 2 ^ (nlog2 k - 23) :=
      (Nat.one_le_div_iff (Nat.pos_pow_of_pos _ (by norm_num))).mpr hpow
    have := div_le_rneDiv k (2 ^ (nlog2 k - 23))
    unfold shiftRNE
    omega

theorem truncF_mulF_zero (e : Int) (y : F32) : truncF (mulF ⟨0, e⟩ y) = 0 := by
  have h1 : mulF ⟨0, e⟩ y = norm24 0 (e + y.e) := by
    unfold mulF
    norm_num
  have h2 : norm24 0 (e + y.e) = ⟨0, e + y.e⟩ := by
    simp only [norm24, nlog2, lg2]
    norm_num
  rw [h1, h2]
  unfold truncF
  split_ifs <;> simp

theorem ofNatF_zero : ofNatF 0 = ⟨0, 0⟩ := rfl

/-- Unfolding of `calculatePercWidth` on valid input. -/
theorem calculatePercWidth_eq (data : List ℤ) (p : Int)
    (h10 : 10 ≤ p) (h90 : p ≤ 90) (hne : data ≠ []) :
    calculatePercWidth data p =
      (data.insertionSort (· ≤ ·)).getD
        (min (upperIndexF data.length p) (data.length - 1)) 0 -
      (data.insertionSort (· ≤ ·)).getD
        (min (lowerIndexF data.length p) (data.length - 1)) 0 := by
  unfold calculatePercWidth lowerIndexF upperIndexF
  rw [if_neg (by omega), if_neg hne]

theorem sorted_getD_mono (l : List ℤ) (h : l.Sorted (· ≤ ·)) {i j : ℕ}
    (hij : i ≤ j) (hj : j < l.length) : l.getD i 0 ≤ l.getD j 0 := by
  have hi : i < l.length := lt_of_le_of_lt hij hj
  rw [List.getD_eq_getElem l 0 hi, List.getD_eq_getElem l 0 hj]
  have := h.rel_get_of_le (a := ⟨i, hi⟩) (b := ⟨j, hj⟩) hij
  simpa [List.get_eq_getElem] using this

/-- The concrete binary32 facts about `perc_decimal = p/100` needed below,
for every percentile `p ∈ [10, 50]` (`p = 10 + q`): its significand and
that of `1.0f - perc_decimal` are nonzero, and `perc_decimal ≤ 1.0f -
perc_decimal` as values. -/
theorem pd_facts : ∀ q : Nat, q < 41 →
    1 ≤ (divF (10 + q) 100).m ∧ 1 ≤ (oneSubF (divF (10 + q) 100)).m ∧
    leDyadic (divF (10 + q) 100) (oneSubF (divF (10 + q) 100)) = true := by
  decide

/-- For `p ∈ [10, 50]` the float-computed lower index never exceeds the
float-computed upper index, for every data size. -/
theorem lowerIndexF_le_upperIndexF (n : Nat) (p : Int)
    (h10 : 10 ≤ p) (h50 : p ≤ 50) : lowerIndexF n p ≤ upperIndexF n p := by
  by_cases hn : n ≤ 1
  · have h0 : n - 1 = 0 := by omega
    unfold lowerIndexF upperIndexF
    rw [h0, ofNatF_zero, truncF_mulF_zero, truncF_mulF_zero]
  · push_neg at hn
    obtain ⟨hpq, hq41⟩ : p.toNat = 10 + (p.toNat - 10) ∧ p.toNat - 10 < 41 := by omega
    obtain ⟨hm1, hm2, hle⟩ := pd_facts (p.toNat - 10) hq41
    rw [← hpq] at hm1 hm2 hle
    rw [leDyadic_iff] at hle
    have hF : 1 ≤ (ofNatF (n - 1)).m := ofNatF_m_pos (n - 1) (by omega)
    have hFpos : 0 < (ofNatF (n - 1)).toQ := toQ_pos _ hF
    have h1 : (mulF (ofNatF (n - 1)) (divF p.toNat 100)).toQ ≤
        (mulF (ofNatF (n - 1)) (oneSubF (divF p.toNat 100))).toQ := by
      rw [mulF_toQ _ _ hF hm1, mulF_toQ _ _ hF hm2]
      apply roundQ_mono (mul_pos hFpos (toQ_pos _ hm1))
      exact mul_le_mul_of_nonneg_left hle (le_of_lt hFpos)
    have h2 := Int.floor_mono h1
    rw [← truncF_eq, ← truncF_eq] at h2
    unfold lowerIndexF upperIndexF
    omega

/-- Agreement/symmetry facts of the float-computed indices at small sizes:
for `n ≤ 5` the float indices coincide with the exact formulas, and the
`p ↔ 100 - p` index pairing is exact. -/
theorem idxFacts_n5 : ∀ n : Nat, n < 6 → ∀ q : Nat, q < 81 →
    lowerIndexF n (10 + q) = specLowerIndex n (10 + q) ∧
    upperIndexF n (10 + q) = specUpperIndex n (10 + q) ∧
    lowerIndexF n (100 - (10 + (q : ℤ))) = upperIndexF n (10 + q) ∧
    upperIndexF n (100 - (10 + (q : ℤ))) = lowerIndexF n (10 + q) := by
  decide

/-! ## Claim theorems: percentile-width statistic -/

/-- C7: for every input sequence, `calculatePercWidth` returns exactly 0
whenever the percentile argument is < 10 or > 90, and returns exactly 0
for an empty input sequence for every percentile value; in neither case
does it fail (the function is total). -/
theorem claim_C7 : ∀ (data : List ℤ) (p : ℤ),
    (p < 10 ∨ 90 < p ∨ data = []) → calculatePercWidth data p = 0 := by
  intro data p h
  unfold calculatePercWidth
  by_cases hp : p < 10 ∨ 90 < p
  · rw [if_pos hp]
  · have hd : data = [] := by tauto
    rw [if_neg hp, if_pos hd]

/-- Witness for C7 at concrete inputs. -/
theorem claim_C7_witness :
    calculatePercWidth [3, 7] 95 = 0 ∧ calculatePercWidth [3, 7] 9 = 0 ∧
    calculatePercWidth [] 50 = 0 :=
  ⟨claim_C7 [3, 7] 95 (Or.inr (Or.inl (by norm_num))),
   claim_C7 [3, 7] 9 (Or.inl (by norm_num)),
   claim_C7 [] 50 (Or.inr (Or.inr rfl))⟩

/-- C1 counterexample: the claim's exact index formula disagrees with the
code.  At `data = [0,1,2,3,4,5]`, `p = 60`, the code's float arithmetic
gives `upper_index = trunc(5 × (1.0f − 0.6f)) = trunc(1.9999999) = 1`
while the claimed formula gives `trunc(5 × 0.4) = 2`, so the returned
width is `-2`, not the claimed `-1`. -/
theorem claim_C1_counterexample :
    calculatePercWidth [0, 1, 2, 3, 4, 5] 60 = -2 ∧
    specPercWidth [0, 1, 2, 3, 4, 5] 60 = -1 ∧
    calculatePercWidth [0, 1, 2, 3, 4, 5] 60 ≠ specPercWidth [0, 1, 2, 3, 4, 5] 60 := by
  refine ⟨by decide, by decide, by decide⟩

/-- C1 (amended): for every non-empty sequence and `p ∈ [10, 90]`,
`calculatePercWidth` sorts ascending and returns the value at the upper
index minus the value at the lower index, where the indices are the
binary32 single-precision evaluations of `(n-1) × p/100` and
`(n-1) × (1 − p/100)` truncated to integer and clamped to `[0, n-1]`;
for all `n ≤ 5` these float-computed indices coincide with the exact
`truncate((n-1) × p/100)` / `truncate((n-1) × (1 − p/100))` of the claim
(they first diverge at `n = 6`, `p = 60`). -/
theorem claim_C1_amended : ∀ (data : List ℤ) (p : ℤ), 10 ≤ p → p ≤ 90 → data ≠ [] →
    (calculatePercWidth data p =
      (data.insertionSort (· ≤ ·)).getD
        (min (upperIndexF data.length p) (data.length - 1)) 0 -
      (data.insertionSort (· ≤ ·)).getD
        (min (lowerIndexF data.length p) (data.length - 1)) 0) ∧
    (data.length ≤ 5 →
      lowerIndexF data.length p = specLowerIndex data.length p ∧
      upperIndexF data.length p = specUpperIndex data.length p ∧
      calculatePercWidth data p = specPercWidth data p) := by
  intro data p h10 h90 hne
  refine ⟨calculatePercWidth_eq data p h10 h90 hne, ?_⟩
  intro hlen
  have hp : (10 : ℤ) + ((p.toNat - 10 : ℕ) : ℤ) = p := by omega
  obtain ⟨e1, e2, _, _⟩ :=
    idxFacts_n5 data.length (by omega) (p.toNat - 10) (by omega)
  rw [hp] at e1 e2
  refine ⟨e1, e2, ?_⟩
  rw [calculatePercWidth_eq data p h10 h90 hne, e1, e2]
  rfl

/-- Witness for C1 (amended) at the spec's own `n = 5` example. -/
theorem claim_C1_witness :
    calculatePercWidth [100, 200, 300, 400, 500] 30 =
      specPercWidth [100, 200, 300, 400, 500] 30 ∧
    calculatePercWidth [100, 200, 300, 400, 500] 30 = 100 ∧
    calculatePercWidth [100, 200, 300, 400, 500] 60 =
      specPercWidth [100, 200, 300, 400, 500] 60 :=
  ⟨((claim_C1_amended [100, 200, 300, 400, 500] 30 (by norm_num) (by norm_num)
      (by simp)).2 (by simp)).2.2,
   by decide,
   ((claim_C1_amended [100, 200, 300, 400, 500] 60 (by norm_num) (by norm_num)
      (by simp)).2 (by simp)).2.2⟩

/-- C3 counterexample: the percentile-width is not non-negative.  At the
spec's own example sequence with `p = 60` the code returns `-100`. -/
theorem claim_C3_counterexample :
    calculatePercWidth [100, 200, 300, 400, 500] 60 = -100 ∧
    ¬ (0 ≤ calculatePercWidth [100, 200, 300, 400, 500] 60) := by
  refine ⟨by decide, by decide⟩

/-- C3 (amended): for every non-empty sequence the result is non-negative
for `p ∈ [10, 50]` (for `p > 50` the two indices trade places and the
result is ≤ 0, e.g. `-100` above); the `p ↔ 100 − p` index pairing holds
with the roles swapped for all `data.length ≤ 5` (so there the width at
`100 − p` is the negation of the width at `p`), but fails for larger
sizes because of float rounding (first at `n = 6`, `p = 20` vs `p = 80`). -/
theorem claim_C3_amended : ∀ (data : List ℤ) (p : ℤ), data ≠ [] →
    (10 ≤ p → p ≤ 50 → 0 ≤ calculatePercWidth data p) ∧
    (10 ≤ p → p ≤ 90 → data.length ≤ 5 →
      lowerIndexF data.length (100 - p) = upperIndexF data.length p ∧
      upperIndexF data.length (100 - p) = lowerIndexF data.length p ∧
      calculatePercWidth data (100 - p) = - calculatePercWidth data p) := by
  intro data p hne
  have hn1 : 1 ≤ data.length := List.length_pos.mpr hne
  have hlen : (data.insertionSort (· ≤ ·)).length = data.length :=
    (List.perm_insertionSort _ data).length_eq
  constructor
  · intro h10 h50
    rw [calculatePercWidth_eq data p h10 (by omega) hne]
    apply sub_nonneg.mpr
    apply sorted_getD_mono _ (List.sorted_insertionSort _ data)
      (min_le_min (lowerIndexF_le_upperIndexF _ _ h10 h50) le_rfl)
    calc min (upperIndexF data.length p) (data.length - 1)
        ≤ data.length - 1 := min_le_right _ _
      _ < (data.insertionSort (· ≤ ·)).length := by omega
  · intro h10 h90 hsz
    have hp : (10 : ℤ) + ((p.toNat - 10 : ℕ) : ℤ) = p := by omega
    obtain ⟨_, _, s1, s2⟩ :=
      idxFacts_n5 data.length (by omega) (p.toNat - 10) (by omega)
    rw [hp] at s1 s2
    refine ⟨s1, s2, ?_⟩
    rw [calculatePercWidth_eq data (100 - p) (by omega) (by omega) hne,
      calculatePercWidth_eq data p h10 h90 hne, s1, s2]
    ring

/-- Witness for C3 (amended): non-negativity at the spec's synthetic
sequence, and the swapped pairing at the `n = 5` example. -/
theorem claim_C3_witness :
    0 ≤ calculatePercWidth [0, 10, 20, 30, 40, 50, 60, 70, 80, 90, 100] 30 ∧
    calculatePercWidth [100, 200, 300, 400, 500] 60 =
      - calculatePercWidth [100, 200, 300, 400, 500] 40 := by
  constructor
  · exact (claim_C3_amended [0, 10, 20, 30, 40, 50, 60, 70, 80, 90, 100] 30
      (by simp)).1 (by norm_num) (by norm_num)
  · have h := ((claim_C3_amended [100, 200, 300, 400, 500] 40
      (by simp)).2 (by norm_num) (by norm_num) (by simp)).2.2
    norm_num at h
    exact h

/-! ## Lemmas: the read loop -/

theorem readGo_error (oneshot : ℕ → Except ℤ ℤ) (cali : ℤ → ℤ) (e : ℤ) :
    ∀ (k r i : ℕ) (acc : List ℤ) (sum : Nat) (mn mx : ℤ), k < r →
    (∀ j, j < k → ∃ v, oneshot (i + j) = .ok v) →
    oneshot (i + k) = .error e →
    readGo oneshot cali i r acc sum mn mx = .error e := by
  intro k
  induction k with
  | zero =>
    intro r i acc sum mn mx hkr _ herr
    obtain ⟨r', rfl⟩ : ∃ r', r = r' + 1 := ⟨r - 1, by omega⟩
    simp only [readGo]
    simp only [Nat.add_zero] at herr
    rw [herr]
  | succ k ih =>
    intro r i acc sum mn mx hkr hok herr
    obtain ⟨r', rfl⟩ : ∃ r', r = r' + 1 := ⟨r - 1, by omega⟩
    obtain ⟨v, hv⟩ := hok 0 (by omega)
    simp only [Nat.add_zero] at hv
    simp only [readGo]
    rw [hv]
    apply ih r' (i + 1) _ _ _ _ (by omega)
    · intro j hj
      obtain ⟨w, hw⟩ := hok (j + 1) (by omega)
      exact ⟨w, by rw [show i + 1 + j = i + (j + 1) by omega]; exact hw⟩
    · rw [show i + 1 + k = i + (k + 1) by omega]
      exact herr

theorem readGo_ok (oneshot : ℕ → Except ℤ ℤ) (cali : ℤ → ℤ) (raw : ℕ → ℤ) :
    ∀ (r i : ℕ) (acc : List ℤ) (sum : Nat) (mn mx : ℤ),
    (∀ j, j < r → oneshot (i + j) = .ok (raw (i + j))) →
    readGo oneshot cali i r acc sum mn mx =
      .ok (acc ++ (List.range r).map (fun t => cali (raw (i + t))),
           sumU32 sum ((List.range r).map (fun t => cali (raw (i + t)))),
           ((List.range r).map (fun t => cali (raw (i + t)))).foldl min mn,
           ((List.range r).map (fun t => cali (raw (i + t)))).foldl max mx) := by
  intro r
  induction r with
  | zero =>
    intro i acc sum mn mx _
    simp [readGo, sumU32]
  | succ r ih =>
    intro i acc sum mn mx h
    have h0 : oneshot (i + 0) = .ok (raw (i + 0)) := h 0 (by omega)
    simp only [Nat.add_zero] at h0
    have hstep : ∀ j, j < r → oneshot ((i + 1) + j) = .ok (raw ((i + 1) + j)) := by
      intro j hj
      rw [show i + 1 + j = i + (j + 1) by omega]
      exact h (j + 1) (by omega)
    have hrange : (List.range (r + 1)).map (fun t => cali (raw (i + t))) =
        cali (raw i) :: (List.range r).map (fun t => cali (raw ((i + 1) + t))) := by
      rw [List.range_succ_eq_map]
      simp only [List.map_cons, List.map_map, Nat.add_zero]
      congr 1
      apply List.map_congr_left
      intro t _
      simp only [Function.comp]
      congr 2
      omega
    simp only [readGo, h0]
    rw [ih (i + 1) _ _ _ _ hstep, hrange]
    simp only [List.append_assoc, List.singleton_append, List.foldl_cons, sumU32]

/-! ## Lemmas: fold characterisations -/

theorem foldl_min_spec (vs : List ℤ) : ∀ mn : ℤ,
    (vs.foldl min mn = mn ∨ vs.foldl min mn ∈ vs) ∧
    vs.foldl min mn ≤ mn ∧ ∀ v ∈ vs, vs.foldl min mn ≤ v := by
  induction vs with
  | nil => simp
  | cons v vs ih =>
    intro mn
    obtain ⟨hmem, hle, hall⟩ := ih (min mn v)
    simp only [List.foldl_cons, List.mem_cons]
    refine ⟨?_, le_trans hle (min_le_left _ _), ?_⟩
    · rcases hmem with hm | hm
      · rcases min_choice mn v with hc | hc
        · left; rw [hm, hc]
        · right; left; rw [hm, hc]
      · right; right; exact hm
    · intro w hw
      rcases hw with rfl | hw
      · exact le_trans hle (min_le_right _ _)
      · exact hall w hw

theorem foldl_max_spec (vs : List ℤ) : ∀ mx : ℤ,
    (vs.foldl max mx = mx ∨ vs.foldl max mx ∈ vs) ∧
    mx ≤ vs.foldl max mx ∧ ∀ v ∈ vs, v ≤ vs.foldl max mx := by
  induction vs with
  | nil => simp
  | cons v vs ih =>
    intro mx
    obtain ⟨hmem, hle, hall⟩ := ih (max mx v)
    simp only [List.foldl_cons, List.mem_cons]
    refine ⟨?_, le_trans (le_max_left _ _) hle, ?_⟩
    · rcases hmem with hm | hm
      · rcases max_choice mx v with hc | hc
        · left; rw [hm, hc]
        · right; left; rw [hm, hc]
      · right; right; exact hm
    · intro w hw
      rcases hw with rfl | hw
      · exact le_trans (le_max_right _ _) hle
      · exact hall w hw

theorem sumU32_exact : ∀ (vs : List ℤ) (sum : Nat), (∀ v ∈ vs, 0 ≤ v) →
    sum + (vs.map Int.toNat).sum < 2 ^ 32 →
    sumU32 sum vs = sum + (vs.map Int.toNat).sum := by
  intro vs
  induction vs with
  | nil =>
    intro sum _ _
    simp [sumU32]
  | cons v vs ih =>
    intro sum hpos hbound
    have hv0 : 0 ≤ v := hpos v (by simp)
    simp only [List.map_cons, List.sum_cons] at hbound
    have hvlt : v < 2 ^ 32 := by omega
    have hmod : v % 2 ^ 32 = v := Int.emod_eq_of_lt hv0 hvlt
    have hstep : (sum + (v % 2 ^ 32).toNat) % 2 ^ 32 = sum + v.toNat := by
      rw [hmod]
      apply Nat.mod_eq_of_lt
      omega
    unfold sumU32
    simp only [List.foldl_cons]
    rw [hstep]
    have hrest := ih (sum + v.toNat) (fun w hw => hpos w (by simp [hw])) (by omega)
    unfold sumU32 at hrest
    rw [hrest]
    simp only [List.map_cons, List.sum_cons]
    omega

theorem toNat_sum_cast (vs : List ℤ) (h : ∀ v ∈ vs, 0 ≤ v) :
    ((vs.map Int.toNat).sum : ℤ) = vs.sum := by
  induction vs with
  | nil => simp
  | cons v vs ih =>
    simp only [List.map_cons, List.sum_cons]
    have hv : 0 ≤ v := h v (by simp)
    have ihr := ih (fun w hw => h w (by simp [hw]))
    rw [Nat.cast_add, ihr]
    omega

/-- The percentile-width of a constant sequence is 0 (for valid inputs). -/
theorem cPW_const (l : List ℤ) (V : ℤ) (p : ℤ) (h10 : 10 ≤ p) (h90 : p ≤ 90)
    (hne : l ≠ []) (hconst : ∀ x ∈ l, x = V) : calculatePercWidth l p = 0 := by
  rw [calculatePercWidth_eq l p h10 h90 hne]
  have hlen : (l.insertionSort (· ≤ ·)).length = l.length :=
    (List.perm_insertionSort _ l).length_eq
  have hn : 1 ≤ l.length := List.length_pos.mpr hne
  have hmem : ∀ i, i < l.length → (l.insertionSort (· ≤ ·)).getD i 0 = V := by
    intro i hi
    have hib : i < (l.insertionSort (· ≤ ·)).length := by omega
    rw [List.getD_eq_getElem _ 0 hib]
    apply hconst
    have hgm : (l.insertionSort (· ≤ ·))[i] ∈ l.insertionSort (· ≤ ·) :=
      List.getElem_mem hib
    exact ((List.perm_insertionSort _ l).mem_iff).mp hgm
  rw [hmem _ (by omega), hmem _ (by omega)]
  ring

theorem foldl_min_mem (vs : List ℤ) (mn : ℤ) (hne : vs ≠ [])
    (hub : ∀ v ∈ vs, v ≤ mn) :
    vs.foldl min mn ∈ vs ∧ ∀ v ∈ vs, vs.foldl min mn ≤ v := by
  obtain ⟨hmem, _, hall⟩ := foldl_min_spec vs mn
  rcases hmem with heq | hm
  · obtain ⟨v0, hv0⟩ := List.exists_mem_of_ne_nil vs hne
    have h1 := hall v0 hv0
    have h2 := hub v0 hv0
    have : v0 = vs.foldl min mn := by omega
    exact ⟨this ▸ hv0, hall⟩
  · exact ⟨hm, hall⟩

theorem foldl_max_mem (vs : List ℤ) (mx : ℤ) (hne : vs ≠ [])
    (hlb : ∀ v ∈ vs, mx ≤ v) :
    vs.foldl max mx ∈ vs ∧ ∀ v ∈ vs, v ≤ vs.foldl max mx := by
  obtain ⟨hmem, _, hall⟩ := foldl_max_spec vs mx
  rcases hmem with heq | hm
  · obtain ⟨v0, hv0⟩ := List.exists_mem_of_ne_nil vs hne
    have h1 := hall v0 hv0
    have h2 := hlb v0 hv0
    have : v0 = vs.foldl max mx := by omega
    exact ⟨this ▸ hv0, hall⟩
  · exact ⟨hm, hall⟩

/-! ## Claim theorems: ADCChannel::read -/

/-- C2: for every sampleCount ≥ 1, if the `k`-th single-shot read
(1 ≤ k ≤ sampleCount) fails with code `e` while all earlier reads
succeed, `read` aborts immediately, returns `e`, and the out-parameter
`result` is returned exactly as the caller passed it (no partially
accumulated statistics are written). -/
theorem claim_C2 : ∀ (oneshot : ℕ → Except ℤ ℤ) (cali : ℤ → ℤ) (n k : ℕ)
    (e : ℤ) (result0 : ADCReadResult),
    1 ≤ k → k ≤ n →
    (∀ j, j < k - 1 → ∃ v, oneshot j = .ok v) →
    oneshot (k - 1) = .error e →
    read oneshot cali n result0 = (e, result0) := by
  intro oneshot cali n k e r0 hk1 hkn hok herr
  unfold read
  have hloop := readGo_error oneshot cali e (k - 1) n 0 [] 0 INT32_MAX INT32_MIN
    (by omega)
    (by intro j hj; simpa using hok j hj)
    (by simpa using herr)
  rw [hloop]

/-- Witness for C2: failure injected at sample k = 2 of 3; the caller's
`result` contents ⟨1,2,3,4,5⟩ survive untouched. -/
theorem claim_C2_witness :
    read (fun j => if j = 1 then .error 261 else .ok 1000) (fun v => v) 3
      ⟨1, 2, 3, 4, 5⟩ = (261, ⟨1, 2, 3, 4, 5⟩) :=
  claim_C2 _ _ 3 2 261 _ (by norm_num) (by norm_num)
    (fun j hj => ⟨1000, by
      have hj0 : j = 0 := by omega
      subst hj0
      rfl⟩) rfl

/-- C6: on success `read` populates `average_mv` with the truncating
integer division of the sum of all calibrated samples by sampleCount,
`min_mv`/`max_mv` with the minimum/maximum calibrated sample, and the two
width fields with `calculatePercWidth` of the full calibrated sample set
at p = 30 and p = 60 (first conjunct; the sum fits the `uint32_t`
accumulator and samples are in `int32` range, per the hypotheses);
a constant calibrated voltage V yields average = min = max = V and both
widths 0 (second conjunct); and on samples [100,200,300,400,500]
average = 300, min = 100, max = 500 and the two widths (100 and −100)
match the exact index formula of the spec (third conjunct). -/
theorem claim_C6 :
    (∀ (oneshot : ℕ → Except ℤ ℤ) (cali : ℤ → ℤ) (raw : ℕ → ℤ) (n : ℕ)
      (r0 : ADCReadResult),
      1 ≤ n →
      (∀ j, j < n → oneshot j = .ok (raw j)) →
      (∀ j, j < n → 0 ≤ cali (raw j) ∧ cali (raw j) ≤ INT32_MAX) →
      (((List.range n).map (fun j => cali (raw j))).map Int.toNat).sum < 2 ^ 32 →
      ∃ res, read oneshot cali n r0 = (0, res) ∧
        res.average_mv = ((List.range n).map (fun j => cali (raw j))).sum / (n : ℤ) ∧
        (res.min_mv ∈ (List.range n).map (fun j => cali (raw j)) ∧
          ∀ v ∈ (List.range n).map (fun j => cali (raw j)), res.min_mv ≤ v) ∧
        (res.max_mv ∈ (List.range n).map (fun j => cali (raw j)) ∧
          ∀ v ∈ (List.range n).map (fun j => cali (raw j)), v ≤ res.max_mv) ∧
        res.p30_width_mv = calculatePercWidth ((List.range n).map (fun j => cali (raw j))) 30 ∧
        res.p60_width_mv = calculatePercWidth ((List.range n).map (fun j => cali (raw j))) 60) ∧
    (∀ (oneshot : ℕ → Except ℤ ℤ) (cali : ℤ → ℤ) (raw : ℕ → ℤ) (n : ℕ) (V : ℤ)
      (r0 : ADCReadResult),
      1 ≤ n →
      (∀ j, j < n → oneshot j = .ok (raw j)) →
      (∀ j, j < n → cali (raw j) = V) →
      0 ≤ V → V ≤ INT32_MAX → n * V.toNat < 2 ^ 32 →
      read oneshot cali n r0 = (0, ⟨V, V, V, 0, 0⟩)) ∧
    (read (fun j => .ok ([100, 200, 300, 400, 500].getD j 0)) (fun v => v) 5
        ⟨0, 0, 0, 0, 0⟩ = (0, ⟨300, 100, 500, 100, -100⟩) ∧
      specLowerIndex 5 30 = 1 ∧ specUpperIndex 5 30 = 2 ∧
      (100 : ℤ) = specPercWidth [100, 200, 300, 400, 500] 30 ∧
      (-100 : ℤ) = specPercWidth [100, 200, 300, 400, 500] 60) := by
  have main : ∀ (oneshot : ℕ → Except ℤ ℤ) (cali : ℤ → ℤ) (raw : ℕ → ℤ) (n : ℕ)
      (r0 : ADCReadResult),
      1 ≤ n →
      (∀ j, j < n → oneshot j = .ok (raw j)) →
      (∀ j, j < n → 0 ≤ cali (raw j) ∧ cali (raw j) ≤ INT32_MAX) →
      (((List.range n).map (fun j => cali (raw j))).map Int.toNat).sum < 2 ^ 32 →
      ∃ res, read oneshot cali n r0 = (0, res) ∧
        res.average_mv = ((List.range n).map (fun j => cali (raw j))).sum / (n : ℤ) ∧
        (res.min_mv ∈ (List.range n).map (fun j => cali (raw j)) ∧
          ∀ v ∈ (List.range n).map (fun j => cali (raw j)), res.min_mv ≤ v) ∧
        (res.max_mv ∈ (List.range n).map (fun j => cali (raw j)) ∧
          ∀ v ∈ (List.range n).map (fun j => cali (raw j)), v ≤ res.max_mv) ∧
        res.p30_width_mv = calculatePercWidth ((List.range n).map (fun j => cali (raw j))) 30 ∧
        res.p60_width_mv = calculatePercWidth ((List.range n).map (fun j => cali (raw j))) 60 := by
    intro oneshot cali raw n r0 hn hok hrange hbound
    have hpos : ∀ v ∈ (List.range n).map (fun j => cali (raw j)), 0 ≤ v := by
      intro v hv
      obtain ⟨j, hj, rfl⟩ := List.mem_map.mp hv
      exact (hrange j (List.mem_range.mp hj)).1
    have hub : ∀ v ∈ (List.range n).map (fun j => cali (raw j)), v ≤ INT32_MAX := by
      intro v hv
      obtain ⟨j, hj, rfl⟩ := List.mem_map.mp hv
      exact (hrange j (List.mem_range.mp hj)).2
    have hlb : ∀ v ∈ (List.range n).map (fun j => cali (raw j)), INT32_MIN ≤ v := by
      intro v hv
      have := hpos v hv
      unfold INT32_MIN
      omega
    have hne : (List.range n).map (fun j => cali (raw j)) ≠ [] := by
      apply List.ne_nil_of_length_pos
      simpa using hn
    unfold read
    have hloop := readGo_ok oneshot cali raw n 0 [] 0 INT32_MAX INT32_MIN
      (by intro j hj; simpa using hok j hj)
    have hfix : (List.range n).map (fun t => cali (raw (0 + t))) =
        (List.range n).map (fun j => cali (raw j)) := by
      apply List.map_congr_left
      intro t _
      rw [Nat.zero_add]
    rw [hfix] at hloop
    simp only [List.nil_append] at hloop
    rw [hloop]
    refine ⟨_, rfl, ?_, ?_, ?_, rfl, rfl⟩
    · show ((sumU32 0 ((List.range n).map (fun j => cali (raw j))) / n : ℕ) : ℤ) = _
      rw [sumU32_exact _ 0 hpos (by simpa using hbound)]
      simp only [Nat.zero_add]
      rw [Int.natCast_div, toNat_sum_cast _ hpos]
    · exact foldl_min_mem _ _ hne hub
    · exact foldl_max_mem _ _ hne hlb
  refine ⟨main, ?_, ?_⟩
  · intro oneshot cali raw n V r0 hn hok hconst hV0 hVmax hVbound
    have hlist : (List.range n).map (fun j => cali (raw j)) = List.replicate n V := by
      apply List.eq_replicate_iff.mpr
      refine ⟨by simp, ?_⟩
      intro v hv
      obtain ⟨j, hj, rfl⟩ := List.mem_map.mp hv
      exact hconst j (List.mem_range.mp hj)
    have hlen : ((List.range n).map (fun j => cali (raw j))).length = n := by simp
    obtain ⟨res, hread, havg, hmin, hmax, hp30, hp60⟩ :=
      main oneshot cali raw n r0 hn hok
        (fun j hj => by rw [hconst j hj]; exact ⟨hV0, hVmax⟩)
        (by
          rw [hlist]
          have : (List.replicate n V).map Int.toNat = List.replicate n V.toNat := by
            simp [List.map_replicate]
          rw [this, List.sum_replicate, smul_eq_mul]
          exact hVbound)
    rw [hlist] at havg hmin hmax hp30 hp60
    have hvne : List.replicate n V ≠ [] := by
      apply List.ne_nil_of_length_pos
      simpa using hn
    have hn0 : (n : ℤ) ≠ 0 := by exact_mod_cast (by omega : n ≠ 0)
    have havg2 : res.average_mv = V := by
      rw [havg, List.sum_replicate, nsmul_eq_mul]
      exact Int.mul_ediv_cancel_left V hn0
    have hmin2 : res.min_mv = V := List.eq_of_mem_replicate hmin.1
    have hmax2 : res.max_mv = V := List.eq_of_mem_replicate hmax.1
    have hp302 : res.p30_width_mv = 0 := by
      rw [hp30]
      exact cPW_const _ V 30 (by norm_num) (by norm_num) hvne
        (fun x hx => List.eq_of_mem_replicate hx)
    have hp602 : res.p60_width_mv = 0 := by
      rw [hp60]
      exact cPW_const _ V 60 (by norm_num) (by norm_num) hvne
        (fun x hx => List.eq_of_mem_replicate hx)
    rw [hread]
    rcases res with ⟨a1, a2, a3, a4, a5⟩
    simp only at havg2 hmin2 hmax2 hp302 hp602
    rw [havg2, hmin2, hmax2, hp302, hp602]
  · refine ⟨by decide, by decide, by decide, by decide, by decide⟩

/-- Witness for C6 at a constant driver: V = 1200 mV over 4 samples. -/
theorem claim_C6_witness :
    read (fun _ => .ok 1200) (fun v => v) 4 ⟨9, 9, 9, 9, 9⟩ =
      (0, ⟨1200, 1200, 1200, 0, 0⟩) :=
  claim_C6.2.1 (fun _ => .ok 1200) (fun v => v) (fun _ => 1200) 4 1200
    ⟨9, 9, 9, 9, 9⟩ (by norm_num) (fun _ _ => rfl) (fun _ _ => rfl)
    (by norm_num) (by norm_num [INT32_MAX]) (by decide)

/-! ## Lemmas: continuous-handle provisioning -/

theorem ensure_init (d : ContDriver) (s : ADCUnitState)
    (h : s.continuous_initialized = true) :
    ensureContinuousInitialized d s = (0, s) := by
  simp [ensureContinuousInitialized, h]

theorem ensure_newHandle_error (d : ContDriver) (s : ADCUnitState)
    (hini : s.continuous_initialized = false) (e : ℤ)
    (hnh : d.newHandle s.newCalls = .error e) :
    ensureContinuousInitialized d s = (e, { s with newCalls := s.newCalls + 1 }) := by
  rw [ensureContinuousInitialized, hini]
  simp [hnh]

theorem ensure_config_error (d : ContDriver) (s : ADCUnitState)
    (hini : s.continuous_initialized = false) (hdl : ℕ) (e : ℤ)
    (hnh : d.newHandle s.newCalls = .ok hdl)
    (hcf : d.configOk s.configCalls = .error e) :
    ensureContinuousInitialized d s =
      (e, { s with newCalls := s.newCalls + 1, cont_handle := some hdl,
                   configCalls := s.configCalls + 1,
                   live := (s.live ++ [hdl]).erase hdl }) := by
  rw [ensureContinuousInitialized, hini]
  simp [hnh, hcf]

theorem ensure_config_ok (d : ContDriver) (s : ADCUnitState)
    (hini : s.continuous_initialized = false) (hdl : ℕ)
    (hnh : d.newHandle s.newCalls = .ok hdl)
    (hcf : d.configOk s.configCalls = .ok ()) :
    ensureContinuousInitialized d s =
      (0, { s with newCalls := s.newCalls + 1, cont_handle := some hdl,
                   configCalls := s.configCalls + 1,
                   live := s.live ++ [hdl], continuous_initialized := true }) := by
  rw [ensureContinuousInitialized, hini]
  simp [hnh, hcf]

theorem getCont_of_ensure_zero (d : ContDriver) (s X : ADCUnitState)
    (hens : ensureContinuousInitialized d s = (0, X)) :
    getContinuousHandle d s = (X.cont_handle, X) := by
  rw [getContinuousHandle, hens]
  norm_num

theorem getCont_of_ensure_nz (d : ContDriver) (s : ADCUnitState) (e : ℤ)
    (X : ADCUnitState) (hens : ensureContinuousInitialized d s = (e, X))
    (he : e ≠ 0) : getContinuousHandle d s = (none, X) := by
  rw [getContinuousHandle, hens]
  simp [he]

theorem ensure_not_init_newCalls (d : ContDriver) (s : ADCUnitState)
    (h : s.continuous_initialized = false) :
    (ensureContinuousInitialized d s).2.newCalls = s.newCalls + 1 := by
  rcases hnh : d.newHandle s.newCalls with e | hdl
  · rw [ensure_newHandle_error d s h e hnh]
  · rcases hcf : d.configOk s.configCalls with e | u
    · rw [ensure_config_error d s h hdl e hnh hcf]
    · rw [ensure_config_ok d s h hdl hnh hcf]

theorem erase_append_singleton_perm (l : List ℕ) (h : ℕ) :
    ((l ++ [h]).erase h).Perm l := by
  induction l with
  | nil => simp
  | cons a l ih =>
    by_cases hah : a = h
    · subst hah
      rw [List.cons_append, List.erase_cons_head]
      exact List.perm_append_singleton a l
    · rw [List.cons_append, List.erase_cons_tail (by simpa using (Ne.symm hah ∘ Eq.symm))]
      exact ih.cons a

/-! ## Claim theorems: ADCUnit streaming-handle provisioning -/

/-- C4 counterexample: after a first call whose configuration step fails,
a second `getContinuousHandle` call does NOT return a cached handle — it
re-runs provisioning (the `new_handle` driver call count goes to 2) and
here even succeeds, returning handle 8.  So the streaming handle is not
"provisioned at most once" and a later call after a failure does re-run
configuration. -/
theorem claim_C4_counterexample :
    (getContinuousHandle d0 u0).1 = none ∧
    (getContinuousHandle d0 (getContinuousHandle d0 u0).2).1 = some 8 ∧
    (getContinuousHandle d0 (getContinuousHandle d0 u0).2).2.newCalls = 2 := by
  refine ⟨by decide, by decide, by decide⟩

/-- C4 (amended): on an already-provisioned unit `getContinuousHandle`
returns the cached handle and leaves the state untouched (no driver
call); once a call returns a non-null handle, every later call returns
that same handle with the state unchanged — so SUCCESSFUL provisioning
happens at most once and is never re-run; a call whose provisioning
fails returns a null handle.  (A failed attempt, however, is retried by
the next call — see C5.) -/
theorem claim_C4_amended :
    (∀ (d : ContDriver) (s : ADCUnitState), s.continuous_initialized = true →
      getContinuousHandle d s = (s.cont_handle, s)) ∧
    (∀ (d : ContDriver), DriverWF d → ∀ (s : ADCUnitState) (h : Nat)
      (s' : ADCUnitState),
      getContinuousHandle d s = (some h, s') →
      getContinuousHandle d s' = (some h, s') ∧
      s'.continuous_initialized = true) ∧
    (∀ (d : ContDriver) (s : ADCUnitState),
      (ensureContinuousInitialized d s).1 ≠ 0 →
      (getContinuousHandle d s).1 = none) := by
  refine ⟨?_, ?_, ?_⟩
  · intro d s h
    exact getCont_of_ensure_zero d s s (ensure_init d s h)
  · intro d hwf s h s' hcall
    by_cases hini : s.continuous_initialized
    · have hgc := getCont_of_ensure_zero d s s (ensure_init d s hini)
      rw [hgc] at hcall
      injection hcall with hh hs
      subst hs
      refine ⟨?_, hini⟩
      rw [hgc, hh]
    · rw [Bool.not_eq_true] at hini
      rcases hnh : d.newHandle s.newCalls with e | hdl
      · have he : e ≠ 0 := hwf.1 _ _ hnh
        rw [getCont_of_ensure_nz d s e _ (ensure_newHandle_error d s hini e hnh) he]
          at hcall
        injection hcall with h1 _
        exact absurd h1 (by simp)
      · rcases hcf : d.configOk s.configCalls with e | u
        · have he : e ≠ 0 := hwf.2 _ _ hcf
          rw [getCont_of_ensure_nz d s e _
            (ensure_config_error d s hini hdl e hnh hcf) he] at hcall
          injection hcall with h1 _
          exact absurd h1 (by simp)
        · have hens := ensure_config_ok d s hini hdl hnh (by cases u; exact hcf)
          have hgc := getCont_of_ensure_zero d s _ hens
          rw [hgc] at hcall
          injection hcall with hh hs
          subst hs
          refine ⟨(getCont_of_ensure_zero d _ _ (ensure_init d _ rfl)).trans ?_, rfl⟩
          rw [hh]
  · intro d s herr
    rw [congrArg Prod.fst (getCont_of_ensure_nz d s _ _ rfl herr)]

/-- Witness for C4 (amended): with an always-succeeding driver, the
second call returns the cached handle 7 after a single provisioning. -/
theorem claim_C4_witness :
    getContinuousHandle dOK (getContinuousHandle dOK u0).2 =
      (some 7, (getContinuousHandle dOK u0).2) ∧
    (getContinuousHandle dOK u0).2.newCalls = 1 :=
  ⟨(claim_C4_amended.2.1 dOK
      ⟨fun _ _ hc => by simp [dOK] at hc, fun _ _ hc => by simp [dOK] at hc⟩
      u0 7 (getContinuousHandle dOK u0).2 (by decide)).1,
   by decide⟩

/-- C5 counterexample: the failed provisioning attempt IS retried
automatically.  After a first call whose configuration fails, the unit's
initialization flag is still false, and the next `getContinuousHandle`
call re-invokes the driver's handle allocation (call count 2) and
provides streaming (handle 8) — contradicting "permanently fails to
provide streaming / not retried automatically". -/
theorem claim_C5_counterexample :
    (getContinuousHandle d0 u0).1 = none ∧
    (getContinuousHandle d0 u0).2.continuous_initialized = false ∧
    (getContinuousHandle d0 (getContinuousHandle d0 u0).2).2.newCalls = 2 ∧
    (getContinuousHandle d0 (getContinuousHandle d0 u0).2).1 = some 8 := by
  refine ⟨by decide, by decide, by decide, by decide⟩

/-- C5 (amended): if any step of the multi-step streaming configuration
fails, the handle allocation already made is reversed — the multiset of
live (allocated, not deinitialised) handles is exactly what it was, so
no resource is leaked — failure is reported (nonzero code, and the
enclosing `getContinuousHandle` returns a null handle), and the unit
remains usable for single-shot operation (its oneshot handle is
untouched).  However the failure is NOT latched: the initialization flag
stays false, and every call on an unlatched unit re-runs provisioning
(one more `new_handle` driver call), i.e. the failed attempt is retried
on subsequent `getContinuousHandle` calls. -/
theorem claim_C5_amended :
    (∀ (d : ContDriver) (s : ADCUnitState),
      (ensureContinuousInitialized d s).1 ≠ 0 →
      ((ensureContinuousInitialized d s).2.live).Perm s.live ∧
      (ensureContinuousInitialized d s).2.oneshot_handle = s.oneshot_handle ∧
      (ensureContinuousInitialized d s).2.continuous_initialized = false ∧
      (getContinuousHandle d s).1 = none) ∧
    (∀ (d : ContDriver) (s : ADCUnitState), s.continuous_initialized = false →
      (ensureContinuousInitialized d s).2.newCalls = s.newCalls + 1) := by
  constructor
  · intro d s herr
    have hgc : (getContinuousHandle d s).1 = none := by
      simp [getContinuousHandle, if_neg herr]
    by_cases hini : s.continuous_initialized
    · rw [ensure_init d s hini] at herr
      exact absurd rfl herr
    · rw [Bool.not_eq_true] at hini
      rcases hnh : d.newHandle s.newCalls with e | hdl
      · rw [ensure_newHandle_error d s hini e hnh]
        exact ⟨List.Perm.refl _, rfl, hini, hgc⟩
      · rcases hcf : d.configOk s.configCalls with e | u
        · rw [ensure_config_error d s hini hdl e hnh hcf]
          exact ⟨erase_append_singleton_perm s.live hdl, rfl, hini, hgc⟩
        · rw [ensure_config_ok d s hini hdl hnh (by cases u; exact hcf)] at herr
          exact absurd rfl herr
  · exact ensure_not_init_newCalls

/-- Witness for C5 (amended): a failing allocation leaves the live-handle
list untouched, yields a null handle, and the attempt counter shows the
provisioning ran (and would run again). -/
theorem claim_C5_witness :
    ((ensureContinuousInitialized dERR u0).2.live).Perm u0.live ∧
    (getContinuousHandle dERR u0).1 = none ∧
    (ensureContinuousInitialized dERR u0).2.newCalls = u0.newCalls + 1 :=
  ⟨(claim_C5_amended.1 dERR u0 (by decide)).1,
   (claim_C5_amended.1 dERR u0 (by decide)).2.2.2,
   claim_C5_amended.2 dERR u0 rfl⟩

/-! ## Lemmas: the streaming polling loop -/

theorem sampleLoop_spec (poll : ℕ → PollRes) (cali : ℤ → ℤ) :
    ∀ (r i : ℕ) (vs lg : List ℤ),
    sampleLoop poll cali i r vs lg =
      (vs ++ ((List.range r).map (fun t => match poll (i + t) with
          | .ok bytes => (decodeBytes bytes).map cali
          | .err _ => [])).flatten,
       lg ++ (List.range r).filterMap (fun t => match poll (i + t) with
          | .ok _ => none
          | .err e => if e = ESP_ERR_TIMEOUT then none else some e)) := by
  intro r
  induction r with
  | zero =>
    intro i vs lg
    simp [sampleLoop]
  | succ r ih =>
    intro i vs lg
    have hshiftm : (List.range (r + 1)).map (fun t => match poll (i + t) with
        | .ok bytes => (decodeBytes bytes).map cali
        | .err _ => ([] : List ℤ)) =
        (match poll i with
          | .ok bytes => (decodeBytes bytes).map cali
          | .err _ => []) ::
        (List.range r).map (fun t => match poll ((i + 1) + t) with
          | .ok bytes => (decodeBytes bytes).map cali
          | .err _ => []) := by
      rw [List.range_succ_eq_map]
      simp only [List.map_cons, List.map_map, Nat.add_zero]
      congr 1
      apply List.map_congr_left
      intro t _
      simp only [Function.comp]
      rw [show i + (t + 1) = i + 1 + t by omega]
    have hshiftf : (List.range (r + 1)).filterMap (fun t => match poll (i + t) with
        | .ok _ => none
        | .err e => if e = ESP_ERR_TIMEOUT then none else some e) =
        (match poll i with
          | .ok _ => (none : Option ℤ)
          | .err e => if e = ESP_ERR_TIMEOUT then none else some e).toList ++
        (List.range r).filterMap (fun t => match poll ((i + 1) + t) with
          | .ok _ => none
          | .err e => if e = ESP_ERR_TIMEOUT then none else some e) := by
      rw [List.range_succ_eq_map]
      rw [List.filterMap_cons, List.filterMap_map]
      rcases hp : poll (i + 0) with bytes | e
      · simp only [Nat.add_zero] at hp
        rw [hp]
        simp only [Option.toList, List.nil_append]
        apply List.filterMap_congr
        intro t _
        simp only [Function.comp]
        rw [show i + (t + 1) = i + 1 + t by omega]
      · simp only [Nat.add_zero] at hp
        rw [hp]
        have hcong : (List.range r).filterMap ((fun t => match poll (i + t) with
            | .ok _ => (none : Option ℤ)
            | .err e => if e = ESP_ERR_TIMEOUT then none else some e) ∘ (· + 1)) =
            (List.range r).filterMap (fun t => match poll ((i + 1) + t) with
            | .ok _ => none
            | .err e => if e = ESP_ERR_TIMEOUT then none else some e) := by
          apply List.filterMap_congr
          intro t _
          simp only [Function.comp]
          rw [show i + (t + 1) = i + 1 + t by omega]
        rw [hcong]
        by_cases he : e = ESP_ERR_TIMEOUT <;> simp [he]
    rcases hp : poll i with bytes | e
    · simp only [sampleLoop, hp]
      rw [ih (i + 1), hshiftm, hshiftf, hp]
      simp [List.flatten_cons, List.append_assoc]
    · simp only [sampleLoop, hp]
      by_cases he : e = ESP_ERR_TIMEOUT
      · rw [if_pos he, ih (i + 1), hshiftm, hshiftf, hp]
        simp [he]
      · rw [if_neg he, ih (i + 1), hshiftm, hshiftf, hp]
        simp [he]

/-! ## Claim theorems: streaming capture -/

/-- C8: the polling loop of `sampleForDuration` runs for the full
duration no matter what the reads return: the captured voltages are the
in-order concatenation of the decoded, calibrated data of the successful
polls, and the logged errors are exactly the non-timeout error codes in
order.  In particular a timeout poll contributes nothing to the log
(silently continues), any other error is logged but does not terminate
the loop, and samples collected before an error are kept. -/
theorem claim_C8 : ∀ (poll : ℕ → PollRes) (cali : ℤ → ℤ) (duration_ms : ℕ),
    sampleLoop poll cali 0 duration_ms [] [] =
      (((List.range duration_ms).map (fun i => match poll i with
          | .ok bytes => (decodeBytes bytes).map cali
          | .err _ => [])).flatten,
       (List.range duration_ms).filterMap (fun i => match poll i with
          | .ok _ => none
          | .err e => if e = ESP_ERR_TIMEOUT then none else some e)) := by
  intro poll cali dur
  rw [sampleLoop_spec poll cali dur 0 [] []]
  simp only [List.nil_append, Nat.zero_add]

/-- C9: each streaming record is decoded from exactly two consecutive
bytes, low byte first, as `(high << 8) | low` masked to the low 12 bits
— equal to `(high % 16) * 256 + low` for byte values, so the high byte's
upper 4 bits are ignored — and each decoded code is calibrated and
appended in order by the polling loop. -/
theorem claim_C9 :
    (∀ (lo hi : ℕ) (rest : List ℕ),
      decodeBytes (lo :: hi :: rest) =
        ((((hi <<< 8) ||| lo) &&& 0xFFF : ℕ) : ℤ) :: decodeBytes rest) ∧
    (∀ (lo hi : ℕ), lo < 256 →
      (((hi <<< 8) ||| lo) &&& 0xFFF : ℕ) = (hi % 16) * 256 + lo) ∧
    (∀ (poll : ℕ → PollRes) (cali : ℤ → ℤ) (i r : ℕ) (vs lg : List ℤ)
      (bytes : List ℕ), poll i = .ok bytes →
      sampleLoop poll cali i (r + 1) vs lg =
        sampleLoop poll cali (i + 1) r (vs ++ (decodeBytes bytes).map cali) lg) := by
  refine ⟨fun lo hi rest => rfl, ?_, ?_⟩
  · intro lo hi hlo
    rw [Nat.shiftLeft_eq]
    have h1 : hi * 2 ^ 8 ||| lo = 2 ^ 8 * hi + lo := by
      rw [Nat.mul_comm]
      exact (Nat.mul_add_lt_is_or (by omega) hi).symm
    rw [h1, show (0xFFF : ℕ) = 2 ^ 12 - 1 by norm_num,
      Nat.and_pow_two_sub_one_eq_mod]
    omega
  · intro poll cali i r vs lg bytes hp
    simp only [sampleLoop, hp]

/-- Witness for C9: the record (low 0x34, high 0x12) decodes to 0x234 =
564; a high byte 0xF2 with the same low 4 bits decodes identically. -/
theorem claim_C9_witness :
    (((0x12 <<< 8) ||| 0x34) &&& 0xFFF : ℕ) = 564 ∧
    (((0xF2 <<< 8) ||| 0x34) &&& 0xFFF : ℕ) = 564 ∧
    decodeBytes [0x34, 0x12] = [564] :=
  ⟨(claim_C9.2.1 0x34 0x12 (by norm_num)).trans (by norm_num),
   (claim_C9.2.1 0x34 0xF2 (by norm_num)).trans (by norm_num),
   by decide⟩

/-! ## Claim theorems: channel construction -/

/-- C10: `ADCChannel::create` returns a channel exactly when the oneshot
channel configuration and the calibration-context creation both succeed,
independently of the streaming handle; the constructor eagerly calls
`getContinuousHandle` on the unit (channel creation triggers streaming
provisioning, mutating the unit state accordingly); and when that
provisioning failed the channel is still created, caching a null
continuous handle, which its `sampleForDuration` then uses. -/
theorem claim_C10 :
    (∀ (cd : ChanDriver) (ud : ContDriver) (u : ADCUnitState),
      (∃ c, (createChannel cd ud u).1 = some c) ↔
      (cd.configChannel = .ok () ∧ ∃ h, cd.caliCreate = .ok h)) ∧
    (∀ (cd : ChanDriver) (ud : ContDriver) (u : ADCUnitState),
      (createChannel cd ud u).2 = (getContinuousHandle ud u).2 ∧
      (constructChannel cd ud u).1.cont_handle = (getContinuousHandle ud u).1) ∧
    (∀ (cd : ChanDriver) (ud : ContDriver) (u : ADCUnitState) (h : ℕ),
      (getContinuousHandle ud u).1 = none →
      cd.configChannel = .ok () → cd.caliCreate = .ok h →
      ∃ c, (createChannel cd ud u).1 = some c ∧ c.cont_handle = none ∧
        c.is_initialized = true ∧
        ∀ (start : Option ℕ → ℤ) (poll : ℕ → PollRes) (cali : ℤ → ℤ)
          (dur : ℕ),
          channelSampleForDuration c start poll cali dur =
            sampleForDuration none start poll cali dur) := by
  refine ⟨?_, ?_, ?_⟩
  · intro cd ud u
    constructor
    · intro ⟨c, hc⟩
      rcases hcc : cd.configChannel with e | u'
      · rw [createChannel, constructChannel, hcc] at hc
        simp at hc
      · rcases hcal : cd.caliCreate with e | hdl
        · rw [createChannel, constructChannel, hcc, hcal] at hc
          simp at hc
        · exact ⟨rfl, hdl, rfl⟩
    · intro ⟨hcc, hdl, hcal⟩
      rw [createChannel, constructChannel, hcc, hcal]
      exact ⟨_, rfl⟩
  · intro cd ud u
    constructor
    · rw [createChannel, constructChannel]
      rcases cd.configChannel with e | u'
      · rfl
      · rcases cd.caliCreate with e | hdl <;> rfl
    · rw [constructChannel]
      rcases cd.configChannel with e | u'
      · rfl
      · rcases cd.caliCreate with e | hdl <;> rfl
  · intro cd ud u h hnull hcc hcal
    refine ⟨{ oneshot_handle := u.oneshot_handle,
              cont_handle := (getContinuousHandle ud u).1,
              cali_handle := some h, is_initialized := true }, ?_, hnull, rfl,
            fun start poll cali dur => by
              rw [channelSampleForDuration, hnull]⟩
    simp [createChannel, constructChannel, hcc, hcal]

/-- Witness for C10: with failing streaming provisioning (`dERR`) but
working channel drivers (`cdOK`), create still returns an initialised
channel caching a null streaming handle. -/
theorem claim_C10_witness :
    ∃ c, (createChannel cdOK dERR u0).1 = some c ∧ c.cont_handle = none ∧
      c.is_initialized = true := by
  obtain ⟨c, h1, h2, h3, _⟩ := claim_C10.2.2 cdOK dERR u0 9 (by decide) rfl rfl
  exact ⟨c, h1, h2, h3⟩

end EDADC
